import Mathlib

/-!
Verification of the journal-preparation core: the line-oriented document
model (parse / serialize / merge) of `src/page.rs`, the calendar scan of
`src/main.rs` and `src/date_utils.rs`.

Modelling conventions:
* Rust `String` is Lean `String`; character-level operations go through
  `String.data : String → List Char`.
* A file's text is modelled by its list of lines (Rust reads files with
  `str::lines()` and writes with `writeln!`, so the line decomposition is
  the interface the code actually works at).  Lines never contain `'\n'`.
* A multi-line outline entry (Rust: one `String` with embedded newlines,
  built by pushing `'\n'` then the continuation line) is modelled as the
  list of its physical lines, which is in bijection with the Rust string
  because the lines are newline-free.
* Fallible operations return `Option` / `Except Unit`.
-/

namespace JournalPrepare

/-- A metadata entry: one `key<SEP>value` line of the header region.
The concrete `Metadata` type lives in `metadata.rs`, which is not part of
the sources; its shape (a key and an opaque value string) is taken from
the spec's data model. -/
structure Metadata where
  key : String
  value : String
deriving Repr, DecidableEq

/-- Splits a character list at the first occurrence of the two-character
key/value separator token `::`, returning the part before and the part
after.  `none` when the separator does not occur. -/
def splitSep : List Char → Option (List Char × List Char)
  | [] => none
  | c :: rest =>
    if c = ':' ∧ rest.head? = some ':' then some ([], rest.tail)
    else (splitSep rest).map fun p => (c :: p.1, p.2)

/-- Modelled from the spec: `metadata.rs` (the `FromStr` impl for
`Metadata`) is not among the sources.  Per spec §4.2/§6 a metadata line is
split on the first occurrence of the key/value separator token (here
`::`, the token visible in the repository's own test fixtures); a line
without the separator is a parse error. -/
def Metadata.parse (line : String) : Option Metadata :=
  (splitSep line.data).map fun p => ⟨⟨p.1⟩, ⟨p.2⟩⟩

/-- Modelled from the spec: `metadata.rs` (the `Display` impl for
`Metadata`) is not among the sources.  Per spec §4.2 a metadata entry is
rendered as `key + separator + value`. -/
def Metadata.display (m : Metadata) : String :=
  m.key ++ "::" ++ m.value

/-- Modelled from the spec: `Metadata::update` of the missing
`metadata.rs`, as used by `Add for Content` in `page.rs`.  Per spec §4.2
the matching entry's value is overwritten in place, its key and position
unchanged. -/
def Metadata.update (m incoming : Metadata) : Metadata :=
  ⟨m.key, incoming.value⟩

/-- Rust `line.starts_with("-")` (the outline-mode switch in
`Content::from_str`, page.rs line 96). -/
def startsDash (l : String) : Bool :=
  match l.data with
  | '-' :: _ => true
  | _ => false

/-- Rust `line.starts_with("- ")` (the entry boundary inside outline
mode, page.rs line 102). -/
def startsDashSpace (l : String) : Bool :=
  match l.data with
  | '-' :: ' ' :: _ => true
  | _ => false

/-- The document `Content` of page.rs: an ordered metadata sequence and an
ordered outline-entry sequence.  Each outline entry is kept as its list of
physical lines (Rust keeps the same data as one string with embedded
newlines). -/
structure Content where
  metadata : List Metadata
  content : List (List String)
deriving Repr, DecidableEq

/-- `Content::from_str` of page.rs, one pass over the input lines with the
`read_content` mode flag.  `acc = none` models `read_content = false`;
`acc = some e` models `read_content = true` with `e` the lines accumulated
for the current outline entry. -/
def parseFold (lines : List String) (page : Content) (acc : Option (List String)) :
    Option Content :=
  match lines with
  | [] =>
    match acc with
    | some e => some { page with content := page.content ++ [e] }
    | none => some page
  | l :: ls =>
    match acc with
    | none =>
      if startsDash l then
        parseFold ls page (some [l])
      else if l ≠ "" then
        match Metadata.parse l with
        | some m => parseFold ls { page with metadata := page.metadata ++ [m] } none
        | none => none
      else
        parseFold ls page none
    | some e =>
      if startsDashSpace l then
        parseFold ls { page with content := page.content ++ [e] } (some [l])
      else
        parseFold ls page (some (e ++ [l]))

/-- Parsing a file's lines into a `Content` (`Content::from_str`). -/
def parseLines (lines : List String) : Option Content :=
  parseFold lines ⟨[], []⟩ none

/-- `Display for Content` of page.rs: each metadata entry on its own line,
one blank separator line, then the outline entries; a bare `-` line is
inserted in front of the first outline entry when that entry is not itself
the bare `-`.  The `enum`/index test mirrors the Rust
`for (index, line) in self.content.iter().enumerate()` loop. -/
def serializeLines (c : Content) : List String :=
  c.metadata.map Metadata.display ++ [""] ++
    (c.content.enum.map fun p =>
      (if p.1 = 0 ∧ p.2 ≠ ["-"] then ["-"] else []) ++ p.2).flatten

/-- One metadata step of `Add for Content` (page.rs lines 122-128): find
the first existing entry with the incoming key and update it, otherwise
append the incoming entry. -/
def updateMeta : List Metadata → Metadata → List Metadata
  | [], m => [m]
  | x :: xs, m => if x.key = m.key then x.update m :: xs else x :: updateMeta xs m

/-- One outline step of `Add for Content` (page.rs lines 129-133): append
the incoming entry only when no entry of the accumulated sequence equals
it. -/
def dedupAppend (cur : List (List String)) (e : List String) : List (List String) :=
  if cur.all fun l => l ≠ e then cur ++ [e] else cur

/-- `Add for Content` of page.rs (`self + rhs`, the document merge). -/
def combine (a b : Content) : Content :=
  ⟨b.metadata.foldl updateMeta a.metadata, b.content.foldl dedupAppend a.content⟩

-- Sanity checks against the repository's own test (page.rs `mod tests`).
example : Metadata.parse "month:: [[2024/September]]" =
    some ⟨"month", " [[2024/September]]"⟩ := by decide

example : parseLines ["week:: yes", "", "-", "- DONE Something else"] =
    some ⟨[⟨"week", " yes"⟩], [["-"], ["- DONE Something else"]]⟩ := by decide

example : serializeLines ⟨[⟨"week", " yes"⟩], [["- TODO Something"]]⟩ =
    ["week:: yes", "", "-", "- TODO Something"] := by decide

example :
    combine ⟨[⟨"filters", " f"⟩, ⟨"week", " yes"⟩], [["-"], ["- DONE Something else"]]⟩
      ⟨[⟨"month", " m"⟩], [["- DONE Something else", "  :LOGBOOK:", "  :END:"]]⟩ =
    ⟨[⟨"filters", " f"⟩, ⟨"week", " yes"⟩, ⟨"month", " m"⟩],
      [["-"], ["- DONE Something else"],
        ["- DONE Something else", "  :LOGBOOK:", "  :END:"]]⟩ := by decide

/-! ### Merge lemmas -/

theorem dedupAppend_eq (cur : List (List String)) (e : List String) :
    dedupAppend cur e = if e ∈ cur then cur else cur ++ [e] := by
  unfold dedupAppend
  by_cases h : e ∈ cur
  · have : ¬ (cur.all fun l => l ≠ e) = true := by
      simp only [List.all_eq_true, decide_eq_true_eq]
      intro hall
      exact hall e h rfl
    simp [this, h]
  · have : (cur.all fun l => l ≠ e) = true := by
      simp only [List.all_eq_true, decide_eq_true_eq]
      intro x hx hxe
      exact h (hxe ▸ hx)
    simp [this, h]

/-- The spec's own wording of the outline half of the merge (§4.2): "for
each entry in `incoming`, it is appended to `base`'s outline sequence only
if no existing entry in the combined sequence so far is textually
identical; otherwise it is silently dropped". -/
def specOutlineMerge (cur : List (List String)) : List (List String) → List (List String)
  | [] => cur
  | e :: es => if e ∈ cur then specOutlineMerge cur es else specOutlineMerge (cur ++ [e]) es

theorem foldl_dedupAppend_eq_spec (es : List (List String)) :
    ∀ cur, es.foldl dedupAppend cur = specOutlineMerge cur es := by
  induction es with
  | nil => intro cur; rfl
  | cons e es ih =>
    intro cur
    rw [List.foldl_cons, dedupAppend_eq, specOutlineMerge]
    by_cases h : e ∈ cur
    · simp only [h, if_pos, ih]
    · simp only [h, if_neg, ih, not_false_eq_true]

theorem foldl_dedupAppend_extends (es : List (List String)) :
    ∀ cur, ∃ t, es.foldl dedupAppend cur = cur ++ t := by
  induction es with
  | nil => intro cur; exact ⟨[], by simp⟩
  | cons e es ih =>
    intro cur
    rw [List.foldl_cons, dedupAppend_eq]
    by_cases h : e ∈ cur
    · simpa [h] using ih cur
    · obtain ⟨t, ht⟩ := ih (cur ++ [e])
      exact ⟨[e] ++ t, by simp [h, ht]⟩

theorem foldl_dedupAppend_absorb (es : List (List String)) :
    ∀ cur, (∀ e ∈ es, e ∈ cur) → es.foldl dedupAppend cur = cur := by
  induction es with
  | nil => intro cur _; rfl
  | cons e es ih =>
    intro cur h
    rw [List.foldl_cons, dedupAppend_eq, if_pos (h e (by simp))]
    exact ih cur fun x hx => h x (by simp [hx])

/-- The spec's own wording of the metadata half of the merge (§4.2): "if
`base` already has an entry with the same key, that entry's value is
overwritten in place (position unchanged); otherwise the entry is appended
to `base`'s metadata sequence". -/
def specMetaStep (l : List Metadata) (m : Metadata) : List Metadata :=
  if m.key ∈ l.map Metadata.key then
    l.map fun x => if x.key = m.key then ⟨x.key, m.value⟩ else x
  else l ++ [m]

theorem keys_updateMeta (m : Metadata) : ∀ l : List Metadata,
    (updateMeta l m).map Metadata.key =
      if m.key ∈ l.map Metadata.key then l.map Metadata.key
      else l.map Metadata.key ++ [m.key] := by
  intro l
  induction l with
  | nil => simp [updateMeta]
  | cons x xs ih =>
    by_cases h : x.key = m.key
    · simp [updateMeta, h, Metadata.update]
    · have h' : ¬ m.key = x.key := fun hh => h hh.symm
      simp only [updateMeta, if_neg h, List.map_cons, List.mem_cons, h', false_or, ih]
      by_cases hm : m.key ∈ xs.map Metadata.key <;> simp [hm]

theorem map_overwrite_id (m : Metadata) : ∀ xs : List Metadata,
    m.key ∉ xs.map Metadata.key →
    (xs.map fun y => if y.key = m.key then (⟨y.key, m.value⟩ : Metadata) else y) = xs := by
  intro xs
  induction xs with
  | nil => intro _; rfl
  | cons a l ih =>
    intro h
    simp only [List.map_cons, List.mem_cons] at h
    push_neg at h
    have ha : ¬ a.key = m.key := fun hh => h.1 hh.symm
    simp only [List.map_cons, if_neg ha, ih h.2]

theorem updateMeta_eq_spec (m : Metadata) : ∀ l : List Metadata,
    (l.map Metadata.key).Nodup → updateMeta l m = specMetaStep l m := by
  intro l
  induction l with
  | nil => intro _; rfl
  | cons x xs ih =>
    intro hnd
    rw [List.map_cons, List.nodup_cons] at hnd
    obtain ⟨hx, hxs⟩ := hnd
    by_cases h : x.key = m.key
    · have hmem : m.key ∈ x.key :: xs.map Metadata.key := by simp [← h]
      have hnone : m.key ∉ xs.map Metadata.key := h ▸ hx
      simp only [updateMeta, if_pos h, specMetaStep, List.map_cons,
        map_overwrite_id m xs hnone]
      rw [if_pos hmem]
      rfl
    · simp only [updateMeta, if_neg h]
      by_cases hm : m.key ∈ xs.map Metadata.key
      · have hmem : m.key ∈ (x :: xs).map Metadata.key := by simp [hm]
        rw [specMetaStep, if_pos hmem, List.map_cons, if_neg h, ih hxs, specMetaStep, if_pos hm]
      · have hmem : m.key ∉ (x :: xs).map Metadata.key := by
          simp only [List.map_cons, List.mem_cons]
          push_neg
          exact ⟨fun hh => h hh.symm, hm⟩
        rw [specMetaStep, if_neg hmem, ih hxs, specMetaStep, if_neg hm]
        simp

theorem keys_nodup_updateMeta (m : Metadata) (l : List Metadata)
    (h : (l.map Metadata.key).Nodup) : ((updateMeta l m).map Metadata.key).Nodup := by
  rw [keys_updateMeta]
  by_cases hm : m.key ∈ l.map Metadata.key
  · simpa [hm]
  · simp [hm, List.nodup_append, h]

theorem foldl_updateMeta_eq_spec (bs : List Metadata) : ∀ l : List Metadata,
    (l.map Metadata.key).Nodup →
    bs.foldl updateMeta l = bs.foldl specMetaStep l ∧
      ((bs.foldl updateMeta l).map Metadata.key).Nodup := by
  induction bs with
  | nil => exact fun l h => ⟨rfl, h⟩
  | cons b bs ih =>
    intro l h
    obtain ⟨h1, h2⟩ := ih (updateMeta l b) (keys_nodup_updateMeta b l h)
    refine ⟨?_, h2⟩
    rw [List.foldl_cons, List.foldl_cons, h1, updateMeta_eq_spec b l h]

theorem foldl_updateMeta_keys_extend (bs : List Metadata) : ∀ l : List Metadata, ∃ t,
    (bs.foldl updateMeta l).map Metadata.key = l.map Metadata.key ++ t := by
  induction bs with
  | nil => exact fun l => ⟨[], by simp⟩
  | cons b bs ih =>
    intro l
    obtain ⟨t, ht⟩ := ih (updateMeta l b)
    by_cases hm : b.key ∈ l.map Metadata.key
    · exact ⟨t, by rw [List.foldl_cons, ht, keys_updateMeta, if_pos hm]⟩
    · exact ⟨b.key :: t, by rw [List.foldl_cons, ht, keys_updateMeta, if_neg hm]; simp⟩

theorem updateMeta_mem_self (m : Metadata) : ∀ l : List Metadata,
    (l.map Metadata.key).Nodup → m ∈ l → updateMeta l m = l := by
  intro l
  induction l with
  | nil => intro _ h; simp at h
  | cons x xs ih =>
    intro hnd hm
    rw [List.map_cons, List.nodup_cons] at hnd
    obtain ⟨hx, hxs⟩ := hnd
    rcases List.mem_cons.mp hm with rfl | hmem
    · simp [updateMeta, Metadata.update]
    · have hne : x.key ≠ m.key := by
        intro hh
        exact hx (hh ▸ List.mem_map.mpr ⟨m, hmem, rfl⟩)
      simp [updateMeta, hne, ih hxs hmem]

theorem foldl_updateMeta_subset_self (bs : List Metadata) : ∀ l : List Metadata,
    (∀ m ∈ bs, m ∈ l) → (l.map Metadata.key).Nodup → bs.foldl updateMeta l = l := by
  induction bs with
  | nil => intro l _ _; rfl
  | cons b bs ih =>
    intro l hsub hnd
    rw [List.foldl_cons, updateMeta_mem_self b l hnd (hsub b (by simp))]
    exact ih l (fun m hm => hsub m (by simp [hm])) hnd

/-! ### Serialization shape -/

theorem serialize_tail (es : List (List String)) : ∀ n : Nat,
    ((List.enumFrom (n + 1) es).map fun p =>
      (if p.1 = 0 ∧ p.2 ≠ ["-"] then ["-"] else []) ++ p.2).flatten = es.flatten := by
  induction es with
  | nil => intro n; rfl
  | cons e es ih =>
    intro n
    simp only [List.enumFrom, List.map_cons, List.flatten_cons]
    rw [if_neg (by simp)]
    simp [ih (n + 1)]

/-! ### Parse-phase decomposition -/

/-- The in-outline phase of `Content::from_str`, described on its own:
given the lines accumulated for the current entry and the remaining input
lines, produce the outline entries that the parser will flush. -/
def outlinePhase (acc : List String) : List String → List (List String)
  | [] => [acc]
  | l :: ls =>
    if startsDashSpace l then acc :: outlinePhase [l] ls
    else outlinePhase (acc ++ [l]) ls

theorem parseFold_outline (ls : List String) : ∀ (page : Content) (acc : List String),
    parseFold ls page (some acc) =
      some { page with content := page.content ++ outlinePhase acc ls } := by
  induction ls with
  | nil => intro page acc; rfl
  | cons l ls ih =>
    intro page acc
    by_cases h : startsDashSpace l
    · simp only [parseFold, if_pos h, ih, outlinePhase]
      simp
    · simp only [parseFold, if_neg h, ih, outlinePhase]

theorem parseFold_fail_iff (ls : List String) : ∀ page : Content,
    parseFold ls page none = none ↔
      ∃ l ∈ ls.takeWhile (fun l => ! startsDash l), l ≠ "" ∧ Metadata.parse l = none := by
  induction ls with
  | nil => intro page; simp [parseFold]
  | cons l ls ih =>
    intro page
    by_cases hd : startsDash l
    · rw [List.takeWhile_cons]
      simp only [parseFold, if_pos hd, parseFold_outline, hd]
      simp
    · rw [List.takeWhile_cons]
      by_cases he : l = ""
      · subst he
        simp only [parseFold, if_neg hd, if_neg (by simp : ¬ ("" : String) ≠ "")]
        simp only [hd, Bool.not_false, if_pos]
        rw [ih page]
        constructor
        · intro ⟨x, hx, h1, h2⟩
          exact ⟨x, List.mem_cons_of_mem _ hx, h1, h2⟩
        · intro ⟨x, hx, h1, h2⟩
          rcases List.mem_cons.mp hx with rfl | hx'
          · exact absurd rfl h1
          · exact ⟨x, hx', h1, h2⟩
      · simp only [parseFold, if_neg hd, if_pos he]
        cases hp : Metadata.parse l with
        | none =>
          simp only [hd, Bool.not_false, if_pos]
          constructor
          · intro _
            exact ⟨l, List.mem_cons_self _ _, he, hp⟩
          · intro _
            trivial
        | some m =>
          simp only [hd, Bool.not_false, if_pos]
          rw [ih]
          constructor
          · intro ⟨x, hx, h1, h2⟩
            exact ⟨x, List.mem_cons_of_mem _ hx, h1, h2⟩
          · intro ⟨x, hx, h1, h2⟩
            rcases List.mem_cons.mp hx with rfl | hx'
            · rw [hp] at h2; cases h2
            · exact ⟨x, hx', h1, h2⟩

theorem serializeLines_eq (md : List Metadata) (ct : List (List String)) :
    serializeLines ⟨md, ct⟩ =
      md.map Metadata.display ++ [""] ++
        match ct with
        | [] => []
        | e :: _ => (if e = ["-"] then [] else ["-"]) ++ ct.flatten := by
  cases ct with
  | nil => simp [serializeLines]
  | cons e es =>
    show md.map Metadata.display ++ [""] ++ _ = md.map Metadata.display ++ [""] ++ _
    simp only [List.append_assoc, List.append_cancel_left_eq]
    show (((0, e) :: List.enumFrom 1 es).map fun p =>
      (if p.1 = 0 ∧ p.2 ≠ ["-"] then ["-"] else []) ++ p.2).flatten = _
    simp only [List.map_cons, List.flatten_cons]
    rw [serialize_tail es 0]
    by_cases he : e = ["-"]
    · simp [he]
    · simp [he]

/-! ### Claim theorems for the merge and serialization -/

/-- Claim C2: for every pair of documents, `combine` never removes or
reorders any outline entry already in the base (the result's outline is
the base's outline extended at its end), and the incoming entries are
treated exactly as the spec words it: an entry textually identical to one
already present in the combined sequence so far is dropped, every other
entry is appended at the end in incoming's order. -/
theorem claim_C2_outline_append_dedup (a b : Content) :
    (∃ t, (combine a b).content = a.content ++ t) ∧
    (combine a b).content = specOutlineMerge a.content b.content :=
  ⟨foldl_dedupAppend_extends b.content a.content,
    foldl_dedupAppend_eq_spec b.content a.content⟩

/-- Claim C3: for documents whose base has unique metadata keys, each
incoming metadata entry overwrites the value of the base entry with the
same key in place (position unchanged) or is appended at the end in
incoming's order; moreover the base's key sequence is always a prefix of
the result's key sequence. -/
theorem claim_C3_metadata_override (a b : Content)
    (h : (a.metadata.map Metadata.key).Nodup) :
    (combine a b).metadata = b.metadata.foldl specMetaStep a.metadata ∧
    ∃ t, (combine a b).metadata.map Metadata.key = a.metadata.map Metadata.key ++ t :=
  ⟨(foldl_updateMeta_eq_spec b.metadata a.metadata h).1,
    foldl_updateMeta_keys_extend b.metadata a.metadata⟩

/-- Witness for claim C3 at a concrete pair of documents. -/
theorem claim_C3_metadata_override_witness :
    (combine ⟨[⟨"next", " [[a]]"⟩, ⟨"filters", " f"⟩], []⟩
        ⟨[⟨"next", " [[b]]"⟩, ⟨"prev", " [[c]]"⟩], []⟩).metadata =
      [(⟨"next", " [[b]]"⟩ : Metadata), ⟨"prev", " [[c]]"⟩].foldl specMetaStep
        [⟨"next", " [[a]]"⟩, ⟨"filters", " f"⟩] ∧
    ∃ t, (combine ⟨[⟨"next", " [[a]]"⟩, ⟨"filters", " f"⟩], []⟩
        ⟨[⟨"next", " [[b]]"⟩, ⟨"prev", " [[c]]"⟩], []⟩).metadata.map Metadata.key =
      ["next", "filters"] ++ t :=
  claim_C3_metadata_override ⟨[⟨"next", " [[a]]"⟩, ⟨"filters", " f"⟩], []⟩
    ⟨[⟨"next", " [[b]]"⟩, ⟨"prev", " [[c]]"⟩], []⟩ (by decide)

/-- Claim C4 (amended): merging any document with itself never changes the
outline, and for a document whose metadata keys are unique (the spec's §3
invariant) `combine d d = d` exactly. -/
theorem claim_C4_merge_idempotent :
    (∀ d : Content, (combine d d).content = d.content) ∧
    (∀ d : Content, (d.metadata.map Metadata.key).Nodup → combine d d = d) := by
  constructor
  · intro d
    exact foldl_dedupAppend_absorb d.content d.content fun e he => he
  · intro d h
    have hm := foldl_updateMeta_subset_self d.metadata d.metadata (fun m hm => hm) h
    have hc := foldl_dedupAppend_absorb d.content d.content fun e he => he
    simp [combine, hm, hc]

/-- Counterexample to claim C4 as stated: a document obtained by parsing
well-formed text can carry a duplicated metadata key, and merging it with
itself then rewrites the first duplicate's value, so the metadata entries
are not unchanged. -/
theorem claim_C4_counterexample :
    parseLines ["a:: 1", "a:: 2"] = some ⟨[⟨"a", " 1"⟩, ⟨"a", " 2"⟩], []⟩ ∧
    (combine ⟨[⟨"a", " 1"⟩, ⟨"a", " 2"⟩], []⟩
        ⟨[⟨"a", " 1"⟩, ⟨"a", " 2"⟩], []⟩).metadata ≠
      [⟨"a", " 1"⟩, ⟨"a", " 2"⟩] := by decide

/-- Witness for claim C4 at a concrete document. -/
theorem claim_C4_merge_idempotent_witness :
    combine ⟨[⟨"week", " yes"⟩], [["-"]]⟩ ⟨[⟨"week", " yes"⟩], [["-"]]⟩ =
      ⟨[⟨"week", " yes"⟩], [["-"]]⟩ :=
  claim_C4_merge_idempotent.2 ⟨[⟨"week", " yes"⟩], [["-"]]⟩ (by decide)

/-- Claim C6: serialization emits each metadata entry as one line in
sequence order, then exactly one blank separator line (also when the
outline is empty), then the outline entries' lines; the bare placeholder
`-` line appears immediately before the first outline entry exactly when
the outline is non-empty and its first entry is not itself the bare
placeholder, and never when the outline is empty. -/
theorem claim_C6_serialize_shape (c : Content) :
    serializeLines c =
      c.metadata.map Metadata.display ++ [""] ++
        match c.content with
        | [] => []
        | e :: _ => (if e = ["-"] then [] else ["-"]) ++ c.content.flatten := by
  obtain ⟨md, ct⟩ := c
  exact serializeLines_eq md ct

/-- Claim C10 (amended): parsing does not collapse repeated metadata keys
(a later line with the same key yields a second entry and the earlier
value survives), while `combine` preserves key uniqueness of its result
whenever its left operand's keys are unique. -/
theorem claim_C10_key_uniqueness :
    parseLines ["a:: 1", "a:: 2"] = some ⟨[⟨"a", " 1"⟩, ⟨"a", " 2"⟩], []⟩ ∧
    ∀ a b : Content, (a.metadata.map Metadata.key).Nodup →
      ((combine a b).metadata.map Metadata.key).Nodup := by
  refine ⟨by decide, fun a b h => ?_⟩
  exact (foldl_updateMeta_eq_spec b.metadata a.metadata h).2

/-- Counterexample to claim C10 as stated: parsing well-formed text with a
repeated metadata key yields a document in which that key appears twice,
not once. -/
theorem claim_C10_counterexample :
    (parseLines ["a:: 1", "a:: 2"]).map (fun c => c.metadata.map Metadata.key) =
      some ["a", "a"] := by decide

/-- Witness for claim C10 at concrete documents. -/
theorem claim_C10_key_uniqueness_witness :
    ((combine ⟨[⟨"week", " yes"⟩], []⟩
        ⟨[⟨"week", " no"⟩, ⟨"month", " m"⟩], []⟩).metadata.map Metadata.key).Nodup :=
  claim_C10_key_uniqueness.2 ⟨[⟨"week", " yes"⟩], []⟩
    ⟨[⟨"week", " no"⟩, ⟨"month", " m"⟩], []⟩ (by decide)

/-! ### Claim C7: the metadata region of the parser -/

/-- Claim C7 (amended): while not yet in outline mode, a non-empty line
not beginning with `-` is parsed as one metadata entry, and parsing fails
if and only if such a line cannot be split at the key/value separator; a
line beginning with `-` (the code tests `starts_with("-")`, not the full
bullet marker `"- "`) switches to outline mode and starts accumulating the
first outline entry. -/
theorem claim_C7_metadata_region :
    (∀ ls : List String, parseLines ls = none ↔
      ∃ l ∈ ls.takeWhile (fun l => ! startsDash l), l ≠ "" ∧ Metadata.parse l = none) ∧
    (∀ (page : Content) (l : String) (ls : List String), startsDash l = true →
      parseFold (l :: ls) page none =
        some { page with content := page.content ++ outlinePhase [l] ls }) ∧
    (∀ (page : Content) (l : String) (ls : List String) (m : Metadata),
      startsDash l = false → l ≠ "" → Metadata.parse l = some m →
      parseFold (l :: ls) page none =
        parseFold ls { page with metadata := page.metadata ++ [m] } none) := by
  refine ⟨fun ls => parseFold_fail_iff ls ⟨[], []⟩, ?_, ?_⟩
  · intro page l ls h
    simp only [parseFold, if_pos h, parseFold_outline]
  · intro page l ls m hd hne hp
    simp [parseFold, hd, hne, hp]

/-- Counterexample to claim C7 as stated: the line `-a:: v` is non-empty,
does not begin with the bullet marker `"- "`, and splits at the key/value
separator, yet the parser does not produce a metadata entry for it — it
switches to outline mode instead (the code tests `starts_with("-")`). -/
theorem claim_C7_counterexample :
    startsDashSpace "-a:: v" = false ∧ ("-a:: v" : String) ≠ "" ∧
    (Metadata.parse "-a:: v").isSome = true ∧
    parseLines ["-a:: v"] = some ⟨[], [["-a:: v"]]⟩ := by decide

/-- Witness for claim C7 at concrete lines. -/
theorem claim_C7_metadata_region_witness :
    parseFold ["- x"] ⟨[], []⟩ none =
      some { (⟨[], []⟩ : Content) with
        content := (⟨[], []⟩ : Content).content ++ outlinePhase ["- x"] [] } ∧
    parseFold ["k:: v"] ⟨[], []⟩ none =
      parseFold [] { (⟨[], []⟩ : Content) with
        metadata := (⟨[], []⟩ : Content).metadata ++ [⟨"k", " v"⟩] } none :=
  ⟨claim_C7_metadata_region.2.1 ⟨[], []⟩ "- x" [] (by decide),
    claim_C7_metadata_region.2.2 ⟨[], []⟩ "k:: v" [] ⟨"k", " v"⟩
      (by decide) (by decide) (by decide)⟩

/-! ### Claim C5: the serialize/parse round trip -/

theorem splitSep_eq (l : List Char) : ∀ k v, splitSep l = some (k, v) →
    l = k ++ ':' :: ':' :: v := by
  induction l with
  | nil => intro k v h; cases h
  | cons c rest ih =>
    intro k v h
    by_cases hg : c = ':' ∧ rest.head? = some ':'
    · rw [splitSep, if_pos hg] at h
      simp only [Option.some.injEq, Prod.mk.injEq] at h
      obtain ⟨hk, hv⟩ := h
      obtain ⟨hc, hh⟩ := hg
      subst hc
      cases rest with
      | nil => simp at hh
      | cons r rs =>
        simp only [List.head?_cons, Option.some.injEq] at hh
        subst hh
        simp only [List.tail_cons] at hv
        simp [← hk, ← hv]
    · rw [splitSep, if_neg hg] at h
      cases hsp : splitSep rest with
      | none => rw [hsp] at h; cases h
      | some p =>
        rw [hsp] at h
        simp only [Option.map_some', Option.some.injEq] at h
        obtain ⟨p1, p2⟩ := p
        obtain ⟨hk, hv⟩ := Prod.mk.injEq .. ▸ h
        rw [← hk, ← hv]
        simpa using ih p1 p2 hsp

theorem display_of_parse (l : String) (m : Metadata) (h : Metadata.parse l = some m) :
    Metadata.display m = l := by
  unfold Metadata.parse at h
  cases hsp : splitSep l.data with
  | none => rw [hsp] at h; cases h
  | some p =>
    rw [hsp] at h
    simp only [Option.map_some', Option.some.injEq] at h
    subst h
    apply String.ext
    show ((⟨p.1⟩ : String) ++ "::" ++ (⟨p.2⟩ : String)).data = l.data
    rw [String.data_append, String.data_append, splitSep_eq l.data p.1 p.2 hsp]
    simp

/-- A metadata entry obtained from an actual metadata-region line: a
non-empty line not starting with `-` that parses to this entry. -/
def metaOk (m : Metadata) : Prop :=
  ∃ l : String, startsDash l = false ∧ l ≠ "" ∧ Metadata.parse l = some m

theorem metaOk_display (m : Metadata) (h : metaOk m) :
    startsDash (Metadata.display m) = false ∧ Metadata.display m ≠ "" ∧
      Metadata.parse (Metadata.display m) = some m := by
  obtain ⟨l, h1, h2, h3⟩ := h
  rw [display_of_parse l m h3]
  exact ⟨h1, h2, h3⟩

/-- Lines that can only be continuation lines of an outline entry. -/
def contOk (t : List String) : Prop := ∀ l ∈ t, startsDashSpace l = false

/-- A non-first outline entry as the parser builds it: a `"- "` head line
followed by continuation lines. -/
def entryOk (e : List String) : Prop :=
  ∃ h t, e = h :: t ∧ startsDashSpace h = true ∧ contOk t

theorem outlinePhase_shape (ls : List String) : ∀ acc, ∃ t es,
    outlinePhase acc ls = (acc ++ t) :: es ∧ contOk t ∧ ∀ e ∈ es, entryOk e := by
  induction ls with
  | nil =>
    intro acc
    refine ⟨[], [], by simp [outlinePhase], ?_, ?_⟩
    · intro x hx; simp at hx
    · intro e he; simp at he
  | cons l ls ih =>
    intro acc
    by_cases h : startsDashSpace l
    · obtain ⟨t', es', h1, h2, h3⟩ := ih [l]
      refine ⟨[], (l :: t') :: es', ?_, ?_, ?_⟩
      · simp only [outlinePhase, if_pos h, h1]
        simp
      · intro x hx; simp at hx
      · intro e he
        rcases List.mem_cons.mp he with rfl | he'
        · exact ⟨l, t', rfl, h, h2⟩
        · exact h3 e he'
    · simp only [Bool.not_eq_true] at h
      obtain ⟨t', es', h1, h2, h3⟩ := ih (acc ++ [l])
      refine ⟨l :: t', es', ?_, ?_, h3⟩
      · simp only [outlinePhase, h, Bool.false_eq_true, if_false, h1]
        simp
      · intro x hx
        rcases List.mem_cons.mp hx with rfl | hx'
        · exact h
        · exact h2 x hx'

theorem parseFold_none_shape (ls : List String) : ∀ (page : Content) (c : Content),
    page.content = [] → (∀ m ∈ page.metadata, metaOk m) →
    parseFold ls page none = some c →
    (∀ m ∈ c.metadata, metaOk m) ∧
      (c.content = [] ∨ ∃ h0 t es, c.content = (h0 :: t) :: es ∧ startsDash h0 = true ∧
        contOk t ∧ ∀ e ∈ es, entryOk e) := by
  induction ls with
  | nil =>
    intro page c hpc hpm h
    simp only [parseFold, Option.some.injEq] at h
    subst h
    exact ⟨hpm, Or.inl hpc⟩
  | cons l ls ih =>
    intro page c hpc hpm h
    by_cases hd : startsDash l
    · simp only [parseFold, if_pos hd, parseFold_outline, Option.some.injEq] at h
      obtain ⟨t, es, hsh, hct, hes⟩ := outlinePhase_shape ls [l]
      subst h
      refine ⟨hpm, Or.inr ⟨l, t, es, ?_, hd, hct, hes⟩⟩
      simp [hpc, hsh]
    · by_cases he : l = ""
      · subst he
        simp only [parseFold, if_neg hd, if_neg (by simp : ¬ ("" : String) ≠ "")] at h
        exact ih page c hpc hpm h
      · cases hp : Metadata.parse l with
        | none =>
          simp only [parseFold, if_neg hd, if_pos he, hp] at h
          cases h
        | some m =>
          simp only [parseFold, if_neg hd, if_pos he, hp] at h
          refine ih { page with metadata := page.metadata ++ [m] } c hpc ?_ h
          intro x hx
          rcases List.mem_append.mp hx with hx' | hx'
          · exact hpm x hx'
          · rw [List.mem_singleton.mp hx']
            exact ⟨l, by simpa using hd, he, hp⟩

theorem outlinePhase_append_cont (t : List String) : ∀ (acc ls : List String), contOk t →
    outlinePhase acc (t ++ ls) = outlinePhase (acc ++ t) ls := by
  induction t with
  | nil => intro acc ls _; simp
  | cons x t ih =>
    intro acc ls h
    have hx : startsDashSpace x = false := h x (by simp)
    simp only [List.cons_append, outlinePhase, hx, Bool.false_eq_true, if_false,
      List.append_eq]
    rw [ih (acc ++ [x]) ls fun y hy => h y (by simp [hy])]
    simp

theorem outlinePhase_entries (es : List (List String)) : ∀ acc : List String,
    (∀ e ∈ es, entryOk e) → outlinePhase acc es.flatten = acc :: es := by
  induction es with
  | nil => intro acc _; rfl
  | cons e es ih =>
    intro acc h
    obtain ⟨hh, tt, he, hsd, hct⟩ := h e (by simp)
    subst he
    rw [List.flatten_cons]
    simp only [List.cons_append, outlinePhase, hsd, if_pos, List.append_eq]
    rw [outlinePhase_append_cont tt [hh] es.flatten hct,
      show [hh] ++ tt = hh :: tt from rfl,
      ih (hh :: tt) fun x hx => h x (by simp [hx])]

theorem parseFold_display_lines (ms : List Metadata) : ∀ (page : Content) (rest : List String),
    (∀ m ∈ ms, metaOk m) →
    parseFold (ms.map Metadata.display ++ rest) page none =
      parseFold rest { page with metadata := page.metadata ++ ms } none := by
  induction ms with
  | nil => intro page rest _; simp
  | cons m ms ih =>
    intro page rest h
    obtain ⟨hd, hne, hp⟩ := metaOk_display m (h m (by simp))
    simp only [List.map_cons, List.cons_append]
    rw [show parseFold (Metadata.display m :: (ms.map Metadata.display ++ rest)) page none =
        parseFold (ms.map Metadata.display ++ rest)
          { page with metadata := page.metadata ++ [m] } none from by
      simp [parseFold, hd, hne, hp]]
    rw [ih _ rest fun x hx => h x (by simp [hx])]
    simp

theorem parseFold_blank (rest : List String) (page : Content) :
    parseFold ("" :: rest) page none = parseFold rest page none := rfl

/-- The normalization the round-trip claim allows: the serialized form may
put exactly one bare placeholder bullet in front of the outline. -/
def padOutline : List (List String) → List (List String)
  | [] => []
  | e :: es => if e = ["-"] then e :: es else ["-"] :: e :: es

/-- The restriction the round trip actually needs: the first outline entry
(if any) is the bare placeholder itself or starts with the full bullet
marker `"- "`. -/
def firstEntryOk : List (List String) → Prop
  | [] => True
  | e :: _ => e = ["-"] ∨ startsDashSpace e.headI = true

/-- Claim C5 (amended): for every document obtained by parsing well-formed
text whose first outline entry is the bare placeholder or starts with the
bullet marker `"- "`, re-parsing the serialized text yields the same
metadata entries and the same outline entries except that exactly one bare
placeholder bullet may be added at (or kept at) the front. -/
theorem claim_C5_roundtrip (ls : List String) (c : Content)
    (h : parseLines ls = some c) (hfst : firstEntryOk c.content) :
    parseLines (serializeLines c) = some ⟨c.metadata, padOutline c.content⟩ := by
  obtain ⟨hm, hsh⟩ := parseFold_none_shape ls ⟨[], []⟩ c rfl (by simp) h
  obtain ⟨md, ct⟩ := c
  simp only at hm hsh hfst ⊢
  rw [serializeLines_eq]
  unfold parseLines
  cases ct with
  | nil =>
    rw [show md.map Metadata.display ++ [""] ++ (List.nil : List String) =
      md.map Metadata.display ++ ("" :: []) from by simp]
    rw [parseFold_display_lines md ⟨[], []⟩ [""] hm, parseFold_blank]
    rfl
  | cons e es =>
    rcases hsh with hsh | ⟨h0, t, es', hseq, hd0, hct, hes⟩
    · cases hsh
    · have hee : e = h0 :: t ∧ es = es' := by
        constructor
        · exact (List.cons.injEq .. ▸ hseq).1
        · exact (List.cons.injEq .. ▸ hseq).2
      obtain ⟨he, hes2⟩ := hee
      subst hes2
      rcases hfst with hbar | hsp
      · subst hbar
        rw [show md.map Metadata.display ++ [""] ++
            ((if (["-"] : List String) = ["-"] then [] else ["-"]) ++ (["-"] :: es).flatten) =
          md.map Metadata.display ++ ("" :: ("-" :: es.flatten)) from by simp]
        rw [parseFold_display_lines md ⟨[], []⟩ _ hm, parseFold_blank]
        show parseFold ("-" :: es.flatten) ⟨md, []⟩ none = _
        simp only [parseFold, show startsDash "-" = true from rfl, if_pos, parseFold_outline]
        rw [outlinePhase_entries es ["-"] hes]
        simp [padOutline]
      · have hne : e ≠ ["-"] := by
          intro hbar
          subst he
          rw [hbar] at hsp
          cases hsp
        have hent : ∀ x ∈ e :: es, entryOk x := by
          intro x hx
          rcases List.mem_cons.mp hx with rfl | hx'
          · subst he
            simp only [List.headI] at hsp
            exact ⟨h0, t, rfl, hsp, hct⟩
          · exact hes x hx'
        rw [show md.map Metadata.display ++ [""] ++
            ((if e = ["-"] then [] else ["-"]) ++ (e :: es).flatten) =
          md.map Metadata.display ++ ("" :: ("-" :: (e :: es).flatten)) from by simp [hne]]
        rw [parseFold_display_lines md ⟨[], []⟩ _ hm, parseFold_blank]
        show parseFold ("-" :: (e :: es).flatten) ⟨md, []⟩ none = _
        simp only [parseFold, show startsDash "-" = true from rfl, if_pos, parseFold_outline]
        rw [outlinePhase_entries (e :: es) ["-"] hent]
        simp [padOutline, hne]

/-- Counterexample to claim C5 as stated: the single line `-x` is
well-formed (it parses), but serializing and re-parsing glues the emitted
placeholder and the entry into one entry, which is neither the original
outline nor the original outline with one bare placeholder added in
front. -/
theorem claim_C5_counterexample :
    parseLines ["-x"] = some ⟨[], [["-x"]]⟩ ∧
    parseLines (serializeLines ⟨[], [["-x"]]⟩) = some ⟨[], [["-", "-x"]]⟩ ∧
    ([["-", "-x"]] : List (List String)) ≠ [["-x"]] ∧
    ([["-", "-x"]] : List (List String)) ≠ ["-"] :: [["-x"]] := by decide

/-- Witness for claim C5 at a concrete input text. -/
theorem claim_C5_roundtrip_witness :
    parseLines (serializeLines ⟨[⟨"week", " yes"⟩], [["- a", "  cont"]]⟩) =
      some ⟨[⟨"week", " yes"⟩], padOutline [["- a", "  cont"]]⟩ :=
  claim_C5_roundtrip ["week:: yes", "", "- a", "  cont"]
    ⟨[⟨"week", " yes"⟩], [["- a", "  cont"]]⟩ (by decide) (Or.inr (by decide))

/-! ### Calendar model

chrono's `NaiveDate` is modelled by its day number (days since
1970-01-01, an `Int`): `date + Days::new(1)` is `+ 1` and date comparison
is integer comparison.  The year/month/day and ISO-week fields are
computed with the standard civil-calendar conversion (floor divisions on
the era of 400 years), matching the proleptic Gregorian calendar chrono
implements. -/

/-- Day number to (year, month 1-12, day 1-31), proleptic Gregorian. -/
def civilFromDays (z : Int) : Int × Nat × Nat :=
  let z' := z + 719468
  let era := z'.fdiv 146097
  let doe := (z' - era * 146097).toNat
  let yoe := (doe - doe / 1460 + doe / 36524 - doe / 146096) / 365
  let doy := doe - (365 * yoe + yoe / 4 - yoe / 100)
  let mp := (5 * doy + 2) / 153
  let d := doy - (153 * mp + 2) / 5 + 1
  let m := if mp < 10 then mp + 3 else mp - 9
  ((era * 400 + yoe : Int) + (if m ≤ 2 then 1 else 0), m, d)

/-- (year, month 1-12, day) to day number, proleptic Gregorian. -/
def daysFromCivil (y : Int) (m d : Nat) : Int :=
  let y' := y - (if m ≤ 2 then 1 else 0)
  let era := y'.fdiv 400
  let yoe := (y' - era * 400).toNat
  let mp := (m + 9) % 12
  let doy := (153 * mp + 2) / 5 + d - 1
  let doe := yoe * 365 + yoe / 4 - yoe / 100 + doy
  era * 146097 + (doe : Int) - 719468

/-- chrono `date.year()`. -/
def dateYear (z : Int) : Int := (civilFromDays z).1

/-- `Month::from(date)` of main.rs / date_utils.rs: the (year, month)
pair of a date. -/
def monthOf (z : Int) : Int × Nat :=
  ((civilFromDays z).1, (civilFromDays z).2.1)

/-- chrono weekday as Monday=0 .. Sunday=6 (1970-01-01 was a Thursday). -/
def weekdayIdx (z : Int) : Int := (z + 3).emod 7

/-- The weekday-name match of `Preparer::print_date` (main.rs 209-217). -/
def weekdayName (z : Int) : String :=
  let w := weekdayIdx z
  if w = 0 then "Monday" else if w = 1 then "Tuesday"
  else if w = 2 then "Wednesday" else if w = 3 then "Thursday"
  else if w = 4 then "Friday" else if w = 5 then "Saturday" else "Sunday"

/-- chrono `date.iso_week()`: the (ISO week-year, week number) of the week
containing the date — the week's Thursday decides the year, the week
number counts Thursdays since that year's first ISO week. -/
def isoWeek (z : Int) : Int × Int :=
  let thursday := z - weekdayIdx z + 3
  let y := (civilFromDays thursday).1
  (y, (thursday - daysFromCivil y 1 1).ediv 7 + 1)

/-- `DateRange for IsoWeek` first (`from_isoywd(y, w, Mon)`): the Monday
of ISO week `w` of ISO year `y` (ISO week 1 contains January 4th). -/
def weekFirst (w : Int × Int) : Int :=
  let jan4 := daysFromCivil w.1 1 4
  jan4 - weekdayIdx jan4 + 7 * (w.2 - 1)

/-- `DateRange for IsoWeek` last (`from_isoywd(y, w, Sun)`). -/
def weekLast (w : Int × Int) : Int := weekFirst w + 6

/-- `Navigation for IsoWeek` next: the week containing (last day + 1). -/
def weekNext (w : Int × Int) : Int × Int := isoWeek (weekLast w + 1)

/-- `Navigation for IsoWeek` prev: the week containing (first day - 1). -/
def weekPrev (w : Int × Int) : Int × Int := isoWeek (weekFirst w - 1)

/-- `DateRange for Month` first: the first day of the month. -/
def monthFirst (m : Int × Nat) : Int := daysFromCivil m.1 m.2 1

/-- `Navigation for Month` next (`(first + Months::new(1)).into()`):
adding one month to a first-of-month never clamps, so it is the
(year, month) successor. -/
def monthNext (m : Int × Nat) : Int × Nat :=
  if m.2 = 12 then (m.1 + 1, 1) else (m.1, m.2 + 1)

/-- `Navigation for Month` prev (`(first - Months::new(1)).into()`). -/
def monthPrev (m : Int × Nat) : Int × Nat :=
  if m.2 = 1 then (m.1 - 1, 12) else (m.1, m.2 - 1)

/-- `DateRange for Month` last (`first + Months::new(1) - Days::new(1)`). -/
def monthLast (m : Int × Nat) : Int := monthFirst (monthNext m) - 1

-- Sanity checks mirroring the date_utils.rs tests.
example : daysFromCivil 1970 1 1 = 0 := by decide
example : civilFromDays (daysFromCivil 2024 9 1) = (2024, 9, 1) := by decide
example : isoWeek (daysFromCivil 2024 12 31) = (2025, 1) := by decide
example : weekPrev (2025, 1) = (2024, 52) := by decide
example : weekNext (2025, 1) = (2025, 2) := by decide
example : monthLast (2024, 2) = daysFromCivil 2024 2 29 := by decide
example : weekFirst (isoWeek (daysFromCivil 2024 9 24)) = daysFromCivil 2024 9 23 := by decide
example : weekLast (isoWeek (daysFromCivil 2024 9 24)) = daysFromCivil 2024 9 29 := by decide
example : weekdayName (daysFromCivil 2024 9 1) = "Sunday" := by decide

/-! ### Page construction and the page store -/

/-- chrono month names, as used by `Month::name()` (date_utils.rs). -/
def monthName : Nat → String
  | 1 => "January" | 2 => "February" | 3 => "March" | 4 => "April"
  | 5 => "May" | 6 => "June" | 7 => "July" | 8 => "August"
  | 9 => "September" | 10 => "October" | 11 => "November" | _ => "December"

/-- Modelled from the spec: the journal-name collaborator (journal_name.rs
is not among the sources); spec §6 requires only a canonical base name per
unit.  The month form `year/MonthName` is visible in the repository's own
test fixture (`[[2024/September]]`). -/
def dayJournalName (z : Int) : String :=
  s!"{(civilFromDays z).1}-{(civilFromDays z).2.1}-{(civilFromDays z).2.2}"

/-- Modelled from the spec: week journal name (journal_name.rs absent). -/
def weekJournalName (w : Int × Int) : String := s!"{w.1}-W{w.2}"

/-- Modelled from the spec: month journal name (journal_name.rs absent). -/
def monthJournalName (m : Int × Nat) : String := s!"{m.1}/{monthName m.2}"

/-- The `Link` display of main.rs: `[[{name}]]`. -/
def linkText (name : String) : String := "[[" ++ name ++ "]]"

/-- The `Embedded` display of main.rs: `\x7b\x7bembed {link}\x7d\x7d`. -/
def embedText (link : String) : String := "\x7b\x7bembed " ++ link ++ "\x7d\x7d"

/-- Modelled from the spec: `ToMetadata` of the missing metadata.rs —
renders the value and tags it with the given key (the space separates the
rendered value from the `::` token, as in the repository's fixtures). -/
def toMetadata (v : String) (key : String) : Metadata := ⟨key, " " ++ v⟩

/-- Modelled from the spec: the `Filters` value of the missing
metadata.rs, an opaque rendering of name/false pairs under the `filters`
key (shape as in the repository's fixture `filters:: \x7b"month" false\x7d`). -/
def filtersMetadata (names : List String) : Metadata :=
  ⟨"filters",
    " \x7b" ++ String.intercalate ", " (names.map fun n => "\"" ++ n ++ "\" false") ++ "\x7d"⟩

/-- The embed-every-day loop of `print_week`/`print_month`: one `- ` entry
per day of the closed range (the Rust loop is do-while, so it always emits
the first day). -/
def embedDays (first last : Int) : List (List String) :=
  (List.range ((last - first).toNat + 1)).map fun i =>
    ["- " ++ embedText (linkText (dayJournalName (first + i)))]

/-- The fresh in-memory document `print_date` builds (main.rs 205-225). -/
def dayContent (z : Int) : Content :=
  ⟨[filtersMetadata [weekJournalName (isoWeek z), monthJournalName (monthOf z)],
    toMetadata (weekdayName z) "day",
    toMetadata (linkText (weekJournalName (isoWeek z))) "week"], []⟩

/-- The fresh in-memory document `print_week` builds (main.rs 169-193). -/
def weekContent (w : Int × Int) : Content :=
  ⟨[filtersMetadata ["week", "month"],
    toMetadata (linkText (monthJournalName (monthOf (weekFirst w)))) "month",
    toMetadata (linkText (weekJournalName (weekNext w))) "next",
    toMetadata (linkText (weekJournalName (weekPrev w))) "prev"],
    embedDays (weekFirst w) (weekLast w)⟩

/-- The fresh in-memory document `print_month` builds (main.rs 135-157). -/
def monthContent (m : Int × Nat) : Content :=
  ⟨[filtersMetadata ["month"],
    toMetadata (linkText (monthJournalName (monthNext m))) "next",
    toMetadata (linkText (monthJournalName (monthPrev m))) "prev"],
    embedDays (monthFirst m) (monthLast m)⟩

/-- Modelled from the spec: the path-construction collaborator (§6) keyed
by calendar unit; per §5 no two periods ever target the same path, so
paths are identified with their units. -/
inductive PagePath where
  | day (z : Int)
  | week (w : Int × Int)
  | month (m : Int × Nat)
  | year (y : Int)
deriving DecidableEq, Repr

/-- On-disk state of one file: readable text (as lines) or a file that
exists but cannot be read. -/
inductive FileState where
  | readable (lines : List String)
  | unreadable
deriving DecidableEq, Repr

/-- The filesystem: contents per page path, `none` when absent. -/
def FS : Type := PagePath → Option FileState

/-- The filesystem with no files. -/
def emptyFS : FS := fun _ => none

/-- The per-period page-store operation shared by `print_date`,
`print_week` and `print_month`: build the fresh document, and if the path
exists hydrate the old page (`Page::try_from`, which fails on an
unreadable file and on a parse failure, aborting before anything is
written) and merge, then write.  The error carries no filesystem: nothing
has been written when it occurs. -/
def writePage (fs : FS) (p : PagePath) (fresh : Content) : Except Unit FS :=
  match fs p with
  | none => .ok (Function.update fs p (some (.readable (serializeLines fresh))))
  | some .unreadable => .error ()
  | some (.readable t) =>
    match parseLines t with
    | none => .error ()
    | some old =>
      .ok (Function.update fs p (some (.readable (serializeLines (combine old fresh)))))

/-- `Preparer::print_date`: write the day page, report its path. -/
def printDate (fs : FS) (z : Int) : Except Unit (FS × PagePath) :=
  (writePage fs (.day z) (dayContent z)).map fun fs' => (fs', .day z)

/-- `Preparer::print_week`: write the week page, report its path. -/
def printWeek (fs : FS) (w : Int × Int) : Except Unit (FS × PagePath) :=
  (writePage fs (.week w) (weekContent w)).map fun fs' => (fs', .week w)

/-- `Preparer::print_month`: write the month page, report its path. -/
def printMonth (fs : FS) (m : Int × Nat) : Except Unit (FS × PagePath) :=
  (writePage fs (.month m) (monthContent m)).map fun fs' => (fs', .month m)

/-- `Preparer::print_year` (main.rs 128-133): computes the year page path
and reports it; it builds no document and writes nothing. -/
def printYear (fs : FS) (y : Int) : Except Unit (FS × PagePath) :=
  .ok (fs, .year y)

/-! ### The orchestrator (`Preparer::run`) -/

/-- One loop iteration of `Preparer::run` after the day advance: emit the
day page, then the week page if the week changed, then the year page if
the year changed, then the month page if the month changed (this is the
code's order), returning the new filesystem, the paths reported, and the
new week/month/year state. -/
def stepDay (fs : FS) (d : Int) (week : Int × Int) (month : Int × Nat) (year : Int) :
    Except Unit (FS × List PagePath × (Int × Int) × (Int × Nat) × Int) :=
  (printDate fs d).bind fun r1 =>
  (if isoWeek d ≠ week then (printWeek r1.1 (isoWeek d)).map fun q => (q.1, [q.2])
   else .ok (r1.1, ([] : List PagePath))).bind fun r2 =>
  (if dateYear d ≠ year then (printYear r2.1 (dateYear d)).map fun q => (q.1, [q.2])
   else .ok (r2.1, ([] : List PagePath))).bind fun r3 =>
  (if monthOf d ≠ month then (printMonth r3.1 (monthOf d)).map fun q => (q.1, [q.2])
   else .ok (r3.1, ([] : List PagePath))).bind fun r4 =>
  .ok (r4.1, r1.2 :: (r2.2 ++ r3.2 ++ r4.2), isoWeek d, monthOf d, dateYear d)

/-- The `loop` of `Preparer::run`: advance the day, run the iteration
body, and stop once the advanced day has reached `tod`.  The fuel only
bounds the recursion; `(tod - date).toNat` suffices whenever
`date < tod`. -/
def prepLoop : Nat → FS → Int → Int → (Int × Int) → (Int × Nat) → Int →
    Except Unit (FS × List PagePath)
  | 0, _, _, _, _, _, _ => .error ()
  | fuel + 1, fs, date, tod, week, month, year =>
    (stepDay fs (date + 1) week month year).bind fun r =>
    if date + 1 ≥ tod then .ok (r.1, r.2.1)
    else
      (prepLoop fuel r.1 (date + 1) tod r.2.2.1 r.2.2.2.1 r.2.2.2.2).bind fun s =>
      .ok (s.1, r.2.1 ++ s.2)

/-- `Preparer::run`: emit the `from` day's four pages (day, week, month,
year — the code's order on entry), then loop day by day until the day
just reached `to`. -/
def runPreparer (fs : FS) (dfrom dto : Int) : Except Unit (FS × List PagePath) :=
  (printDate fs dfrom).bind fun r1 =>
  (printWeek r1.1 (isoWeek dfrom)).bind fun r2 =>
  (printMonth r2.1 (monthOf dfrom)).bind fun r3 =>
  (printYear r3.1 (dateYear dfrom)).bind fun r4 =>
  (prepLoop (dto - dfrom).toNat r4.1 dfrom dto (isoWeek dfrom) (monthOf dfrom)
    (dateYear dfrom)).bind fun s =>
  .ok (s.1, r1.2 :: r2.2 :: r3.2 :: r4.2 :: s.2)

/-- The closed integer interval `[a, b]`, the days the scan processes. -/
def dayRange (a b : Int) : List Int :=
  (List.range ((b - a).toNat + 1)).map fun i : Nat => a + (i : Int)

/-- Keep the elements that differ from their predecessor (seeded with
`prev`): the successive values at which a change-detection emission
fires. -/
def changesFrom {α : Type} [DecidableEq α] (prev : α) : List α → List α
  | [] => []
  | x :: xs => if x = prev then changesFrom prev xs else x :: changesFrom x xs

def isDayPath : PagePath → Bool
  | .day _ => true
  | _ => false

def isMonthPath : PagePath → Bool
  | .month _ => true
  | _ => false

def isYearPath : PagePath → Bool
  | .year _ => true
  | _ => false

/-! ### Serialized text always re-parses -/

theorem splitSep_sep_isSome : ∀ k v : List Char,
    (splitSep (k ++ ':' :: ':' :: v)).isSome = true := by
  intro k
  induction k with
  | nil =>
    intro v
    simp [splitSep]
  | cons c k ih =>
    intro v
    rw [List.cons_append]
    by_cases hg : c = ':' ∧ (k ++ ':' :: ':' :: v).head? = some ':'
    · simp [splitSep, hg]
    · rw [splitSep, if_neg hg]
      have := ih v
      cases hsp : splitSep (k ++ ':' :: ':' :: v) with
      | none => rw [hsp] at this; simp at this
      | some p => simp

theorem parse_display_isSome (m : Metadata) :
    (Metadata.parse (Metadata.display m)).isSome = true := by
  unfold Metadata.parse Metadata.display
  have hsep : ("::" : String).data = [':', ':'] := rfl
  have hdata : (m.key ++ "::" ++ m.value).data =
      m.key.data ++ ':' :: ':' :: m.value.data := by
    rw [String.data_append, String.data_append, hsep, List.append_assoc]
    rfl
  rw [hdata]
  have := splitSep_sep_isSome m.key.data m.value.data
  cases hsp : splitSep (m.key.data ++ ':' :: ':' :: m.value.data) with
  | none => rw [hsp] at this; simp at this
  | some p => simp

theorem takeWhile_mem_of_head_dash (X : List String)
    (hX : X = [] ∨ ∃ x xs, X = x :: xs ∧ startsDash x = true) :
    ∀ ds : List String, ∀ l ∈ (ds ++ X).takeWhile (fun l => ! startsDash l), l ∈ ds := by
  intro ds
  induction ds with
  | nil =>
    intro l hl
    rcases hX with rfl | ⟨x, xs, rfl, hx⟩
    · simp at hl
    · simp only [List.nil_append, List.takeWhile_cons, hx] at hl
      simp at hl
  | cons d ds ih =>
    intro l hl
    rw [List.cons_append, List.takeWhile_cons] at hl
    by_cases hd : (! startsDash d) = true
    · rw [if_pos hd] at hl
      rcases List.mem_cons.mp hl with rfl | hl'
      · exact List.mem_cons_self _ _
      · exact List.mem_cons_of_mem _ (ih l hl')
    · rw [if_neg hd] at hl
      simp at hl

theorem parse_serialize_isSome (c : Content) :
    (parseLines (serializeLines c)).isSome = true := by
  cases hres : parseLines (serializeLines c) with
  | some c' => rfl
  | none =>
    exfalso
    obtain ⟨l, hmem, hne, hp⟩ := (parseFold_fail_iff (serializeLines c) ⟨[], []⟩).mp hres
    obtain ⟨md, ct⟩ := c
    rw [serializeLines_eq] at hmem
    have hX : (match ct with
        | [] => ([] : List String)
        | e :: _ => (if e = ["-"] then [] else ["-"]) ++ ct.flatten) = [] ∨
        ∃ x xs, (match ct with
          | [] => ([] : List String)
          | e :: _ => (if e = ["-"] then [] else ["-"]) ++ ct.flatten) = x :: xs ∧
          startsDash x = true := by
      cases ct with
      | nil => exact Or.inl rfl
      | cons e es =>
        by_cases he : e = ["-"]
        · subst he
          exact Or.inr ⟨"-", (["-"] :: es).flatten.tail, by simp, rfl⟩
        · exact Or.inr ⟨"-", (e :: es).flatten, by simp [he], rfl⟩
    have hin : l ∈ md.map Metadata.display ++ [""] := by
      refine takeWhile_mem_of_head_dash _ hX (md.map Metadata.display ++ [""]) l ?_
      simpa [List.append_assoc] using hmem
    rcases List.mem_append.mp hin with hin' | hin'
    · obtain ⟨m, _, rfl⟩ := List.mem_map.mp hin'
      have := parse_display_isSome m
      rw [hp] at this
      simp at this
    · rw [List.mem_singleton.mp hin'] at hne
      exact hne rfl

/-! ### The page store under a well-formed filesystem -/

/-- Every existing file is the serialization of some document (in
particular readable and re-parseable). -/
def GoodFS (fs : FS) : Prop :=
  ∀ p, fs p = none ∨ ∃ c, fs p = some (.readable (serializeLines c))

theorem goodFS_empty : GoodFS emptyFS := fun _ => Or.inl rfl

theorem writePage_ok (fs : FS) (p : PagePath) (fresh : Content) (h : GoodFS fs) :
    ∃ fs', writePage fs p fresh = .ok fs' ∧ GoodFS fs' ∧
      ∀ q, q ≠ p → fs' q = fs q := by
  have hupd : ∀ c : Content, GoodFS (Function.update fs p (some (.readable (serializeLines c)))) := by
    intro c q
    by_cases hq : q = p
    · subst hq
      exact Or.inr ⟨c, by simp⟩
    · rcases h q with h' | ⟨c', h'⟩
      · left; rwa [Function.update_noteq hq]
      · right; exact ⟨c', by rwa [Function.update_noteq hq]⟩
  rcases h p with hp | ⟨c0, hp⟩
  · exact ⟨_, by simp [writePage, hp], hupd fresh,
      fun q hq => Function.update_noteq hq _ _⟩
  · have hps := parse_serialize_isSome c0
    cases hpp : parseLines (serializeLines c0) with
    | none => rw [hpp] at hps; simp at hps
    | some old =>
      exact ⟨_, by simp [writePage, hp, hpp], hupd (combine old fresh),
        fun q hq => Function.update_noteq hq _ _⟩

theorem except_bind_ok {α β : Type} (a : α) (f : α → Except Unit β) :
    (Except.ok a).bind f = f a := rfl

theorem printDate_ok (fs : FS) (z : Int) (h : GoodFS fs) :
    ∃ fs', printDate fs z = .ok (fs', .day z) ∧ GoodFS fs' ∧
      ∀ q, q ≠ PagePath.day z → fs' q = fs q := by
  obtain ⟨fs', h1, h2, h3⟩ := writePage_ok fs (.day z) (dayContent z) h
  exact ⟨fs', by simp [printDate, h1, Except.map], h2, h3⟩

theorem printWeek_ok (fs : FS) (w : Int × Int) (h : GoodFS fs) :
    ∃ fs', printWeek fs w = .ok (fs', .week w) ∧ GoodFS fs' ∧
      ∀ q, q ≠ PagePath.week w → fs' q = fs q := by
  obtain ⟨fs', h1, h2, h3⟩ := writePage_ok fs (.week w) (weekContent w) h
  exact ⟨fs', by simp [printWeek, h1, Except.map], h2, h3⟩

theorem printMonth_ok (fs : FS) (m : Int × Nat) (h : GoodFS fs) :
    ∃ fs', printMonth fs m = .ok (fs', .month m) ∧ GoodFS fs' ∧
      ∀ q, q ≠ PagePath.month m → fs' q = fs q := by
  obtain ⟨fs', h1, h2, h3⟩ := writePage_ok fs (.month m) (monthContent m) h
  exact ⟨fs', by simp [printMonth, h1, Except.map], h2, h3⟩

/-! ### The orchestrator under a well-formed filesystem -/

theorem stepDay_ok (fs : FS) (d : Int) (w : Int × Int) (m : Int × Nat) (y : Int)
    (h : GoodFS fs) :
    ∃ fs', stepDay fs d w m y = .ok (fs',
        PagePath.day d ::
          ((if isoWeek d ≠ w then [PagePath.week (isoWeek d)] else []) ++
            (if dateYear d ≠ y then [PagePath.year (dateYear d)] else []) ++
            (if monthOf d ≠ m then [PagePath.month (monthOf d)] else [])),
        isoWeek d, monthOf d, dateYear d) ∧
      GoodFS fs' ∧ ∀ yy, fs' (.year yy) = fs (.year yy) := by
  obtain ⟨fs1, h1, hg1, hq1⟩ := printDate_ok fs d h
  have step2 : ∃ fs2,
      (if isoWeek d ≠ w then (printWeek fs1 (isoWeek d)).map fun q => (q.1, [q.2])
        else .ok (fs1, ([] : List PagePath))) =
        .ok (fs2, if isoWeek d ≠ w then [PagePath.week (isoWeek d)] else []) ∧
      GoodFS fs2 ∧ ∀ q, q ≠ PagePath.week (isoWeek d) → fs2 q = fs1 q := by
    by_cases hw : isoWeek d ≠ w
    · obtain ⟨fs2, h2, hg2, hq2⟩ := printWeek_ok fs1 (isoWeek d) hg1
      exact ⟨fs2, by simp [hw, h2, Except.map], hg2, hq2⟩
    · exact ⟨fs1, by simp [hw], hg1, fun q _ => rfl⟩
  obtain ⟨fs2, h2, hg2, hq2⟩ := step2
  have step3 :
      (if dateYear d ≠ y then (printYear fs2 (dateYear d)).map fun q => (q.1, [q.2])
        else .ok (fs2, ([] : List PagePath))) =
        .ok (fs2, if dateYear d ≠ y then [PagePath.year (dateYear d)] else []) := by
    by_cases hy : dateYear d ≠ y
    · simp [hy, printYear, Except.map]
    · simp [hy]
  have step4 : ∃ fs4,
      (if monthOf d ≠ m then (printMonth fs2 (monthOf d)).map fun q => (q.1, [q.2])
        else .ok (fs2, ([] : List PagePath))) =
        .ok (fs4, if monthOf d ≠ m then [PagePath.month (monthOf d)] else []) ∧
      GoodFS fs4 ∧ ∀ q, q ≠ PagePath.month (monthOf d) → fs4 q = fs2 q := by
    by_cases hm : monthOf d ≠ m
    · obtain ⟨fs4, h4, hg4, hq4⟩ := printMonth_ok fs2 (monthOf d) hg2
      exact ⟨fs4, by simp [hm, h4, Except.map], hg4, hq4⟩
    · exact ⟨fs2, by simp [hm], hg2, fun q _ => rfl⟩
  obtain ⟨fs4, h4, hg4, hq4⟩ := step4
  refine ⟨fs4, ?_, hg4, ?_⟩
  · simp only [stepDay, h1, except_bind_ok, h2, step3, h4]
  · intro yy
    rw [hq4 _ (by intro hh; cases hh), hq2 _ (by intro hh; cases hh),
      hq1 _ (by intro hh; cases hh)]

theorem dayRange_self (a : Int) : dayRange a a = [a] := by
  have h0 : (a - a).toNat = 0 := by omega
  rw [dayRange, h0, show List.range (0 + 1) = [0] from rfl]
  simp

theorem dayRange_cons (a b : Int) (h : a < b) : dayRange a b = a :: dayRange (a + 1) b := by
  unfold dayRange
  have h1 : (b - a).toNat = (b - (a + 1)).toNat + 1 := by omega
  rw [h1, List.range_succ_eq_map]
  have h2 : ((fun i : Nat => a + (i : Int)) ∘ Nat.succ) = fun i : Nat => (a + 1) + (i : Int) := by
    funext i
    simp only [Function.comp_apply]
    push_cast
    ring
  simp only [List.map_cons, List.map_map, h2]
  norm_num

theorem prepLoop_ok : ∀ (n : Nat) (fs : FS) (date tod : Int) (w : Int × Int)
    (m : Int × Nat) (y : Int),
    GoodFS fs → date < tod → (tod - date).toNat ≤ n →
    ∃ fs' evs, prepLoop n fs date tod w m y = .ok (fs', evs) ∧ GoodFS fs' ∧
      (∀ yy, fs' (.year yy) = fs (.year yy)) ∧
      evs.filter isDayPath = (dayRange (date + 1) tod).map PagePath.day ∧
      evs.filter isMonthPath =
        (changesFrom m ((dayRange (date + 1) tod).map monthOf)).map PagePath.month ∧
      evs.filter isYearPath =
        (changesFrom y ((dayRange (date + 1) tod).map dateYear)).map PagePath.year := by
  intro n
  induction n with
  | zero => intro fs date tod w m y hg hlt hfuel; omega
  | succ n ih =>
    intro fs date tod w m y hg hlt hfuel
    obtain ⟨fs1, hstep, hg1, hyr1⟩ := stepDay_ok fs (date + 1) w m y hg
    by_cases hend : date + 1 ≥ tod
    · have hdeq : tod = date + 1 := by omega
      refine ⟨fs1,
        PagePath.day (date + 1) ::
          ((if isoWeek (date + 1) ≠ w then [PagePath.week (isoWeek (date + 1))] else []) ++
            (if dateYear (date + 1) ≠ y then [PagePath.year (dateYear (date + 1))] else []) ++
            (if monthOf (date + 1) ≠ m then [PagePath.month (monthOf (date + 1))] else [])),
        ?_, hg1, hyr1, ?_, ?_, ?_⟩
      · simp only [prepLoop, hstep, except_bind_ok, if_pos hend]
      · rw [hdeq, dayRange_self]
        by_cases hw : isoWeek (date + 1) ≠ w <;>
          by_cases hy : dateYear (date + 1) ≠ y <;>
          by_cases hm : monthOf (date + 1) ≠ m <;>
          simp [hw, hy, hm, isDayPath]
      · rw [hdeq, dayRange_self]
        by_cases hw : isoWeek (date + 1) ≠ w <;>
          by_cases hy : dateYear (date + 1) ≠ y <;>
          by_cases hm : monthOf (date + 1) ≠ m <;>
          simp [hw, hy, hm, isMonthPath, changesFrom]
      · rw [hdeq, dayRange_self]
        by_cases hw : isoWeek (date + 1) ≠ w <;>
          by_cases hy : dateYear (date + 1) ≠ y <;>
          by_cases hm : monthOf (date + 1) ≠ m <;>
          simp [hw, hy, hm, isYearPath, changesFrom]
    · push_neg at hend
      obtain ⟨fs2, evs2, hrec, hg2, hyr2, hday2, hmon2, hyear2⟩ :=
        ih fs1 (date + 1) tod (isoWeek (date + 1)) (monthOf (date + 1)) (dateYear (date + 1))
          hg1 hend (by omega)
      refine ⟨fs2,
        (PagePath.day (date + 1) ::
          ((if isoWeek (date + 1) ≠ w then [PagePath.week (isoWeek (date + 1))] else []) ++
            (if dateYear (date + 1) ≠ y then [PagePath.year (dateYear (date + 1))] else []) ++
            (if monthOf (date + 1) ≠ m then [PagePath.month (monthOf (date + 1))] else []))) ++
          evs2,
        ?_, hg2, ?_, ?_, ?_, ?_⟩
      · simp only [prepLoop, hstep, except_bind_ok, if_neg (by omega : ¬ date + 1 ≥ tod),
          hrec]
      · intro yy; rw [hyr2 yy, hyr1 yy]
      · rw [dayRange_cons (date + 1) tod hend]
        by_cases hw : isoWeek (date + 1) ≠ w <;>
          by_cases hy : dateYear (date + 1) ≠ y <;>
          by_cases hm : monthOf (date + 1) ≠ m <;>
          simp [hw, hy, hm, isDayPath, hday2]
      · rw [dayRange_cons (date + 1) tod hend]
        by_cases hw : isoWeek (date + 1) ≠ w <;>
          by_cases hy : dateYear (date + 1) ≠ y <;>
          by_cases hm : monthOf (date + 1) ≠ m <;>
          simp [hw, hy, hm, isMonthPath, changesFrom, hmon2] <;>
          simp_all [changesFrom]
      · rw [dayRange_cons (date + 1) tod hend]
        by_cases hw : isoWeek (date + 1) ≠ w <;>
          by_cases hy : dateYear (date + 1) ≠ y <;>
          by_cases hm : monthOf (date + 1) ≠ m <;>
          simp [hw, hy, hm, isYearPath, changesFrom, hyear2] <;>
          simp_all [changesFrom]

theorem runPreparer_ok (fs : FS) (dfrom dto : Int) (hg : GoodFS fs) (hlt : dfrom < dto) :
    ∃ fs' evs, runPreparer fs dfrom dto = .ok (fs', evs) ∧ GoodFS fs' ∧
      (∀ yy, fs' (.year yy) = fs (.year yy)) ∧
      evs.filter isDayPath = (dayRange dfrom dto).map PagePath.day ∧
      evs.filter isMonthPath =
        (monthOf dfrom ::
          changesFrom (monthOf dfrom) ((dayRange (dfrom + 1) dto).map monthOf)).map
          PagePath.month ∧
      evs.filter isYearPath =
        (dateYear dfrom ::
          changesFrom (dateYear dfrom) ((dayRange (dfrom + 1) dto).map dateYear)).map
          PagePath.year := by
  obtain ⟨fs1, h1, hg1, hq1⟩ := printDate_ok fs dfrom hg
  obtain ⟨fs2, h2, hg2, hq2⟩ := printWeek_ok fs1 (isoWeek dfrom) hg1
  obtain ⟨fs3, h3, hg3, hq3⟩ := printMonth_ok fs2 (monthOf dfrom) hg2
  obtain ⟨fs', evs, hrec, hg', hyr', hday, hmon, hyear⟩ :=
    prepLoop_ok (dto - dfrom).toNat fs3 dfrom dto (isoWeek dfrom) (monthOf dfrom)
      (dateYear dfrom) hg3 hlt (le_refl _)
  refine ⟨fs', PagePath.day dfrom :: PagePath.week (isoWeek dfrom) ::
    PagePath.month (monthOf dfrom) :: PagePath.year (dateYear dfrom) :: evs, ?_, hg', ?_,
    ?_, ?_, ?_⟩
  · simp only [runPreparer, h1, except_bind_ok, h2, h3, printYear, hrec]
  · intro yy
    rw [hyr' yy, hq3 _ (by intro hh; cases hh), hq2 _ (by intro hh; cases hh),
      hq1 _ (by intro hh; cases hh)]
  · rw [dayRange_cons dfrom dto hlt]
    simp [isDayPath, hday]
  · simp [isMonthPath, hmon]
  · simp [isYearPath, hyear]

/-! ### Claim theorems for the page store and the orchestrator -/

/-- Claim C1: when the month page's file exists but cannot be read, or
reads but fails to parse, the per-period generation operation
(`print_month`, via `Page::try_from`) returns an error before writing
anything — the error carries no filesystem, so the on-disk content is
untouched and the surrounding run aborts; when the file is absent the
operation succeeds and writes the serialization of the freshly built
in-memory document alone. -/
theorem claim_C1_parse_failure_aborts (fs : FS) (m : Int × Nat) :
    (fs (PagePath.month m) = some .unreadable → printMonth fs m = .error ()) ∧
    (∀ t, fs (PagePath.month m) = some (.readable t) → parseLines t = none →
      printMonth fs m = .error ()) ∧
    (fs (PagePath.month m) = none →
      printMonth fs m = .ok
        (Function.update fs (PagePath.month m)
          (some (.readable (serializeLines (monthContent m)))), PagePath.month m)) ∧
    (∀ dfrom dto : Int, fs (PagePath.day dfrom) = none →
      fs (PagePath.week (isoWeek dfrom)) = none →
      fs (PagePath.month (monthOf dfrom)) = some .unreadable →
      runPreparer fs dfrom dto = .error ()) := by
  refine ⟨?_, ?_, ?_, ?_⟩
  · intro h
    simp [printMonth, writePage, h, Except.map]
  · intro t h hp
    simp [printMonth, writePage, h, hp, Except.map]
  · intro h
    simp [printMonth, writePage, h, Except.map]
  · intro dfrom dto h1 h2 h3
    have e1 : printDate fs dfrom = .ok
        (Function.update fs (PagePath.day dfrom)
          (some (.readable (serializeLines (dayContent dfrom)))), PagePath.day dfrom) := by
      simp [printDate, writePage, h1, Except.map]
    have e2 : printWeek (Function.update fs (PagePath.day dfrom)
        (some (.readable (serializeLines (dayContent dfrom))))) (isoWeek dfrom) = .ok
        (Function.update
          (Function.update fs (PagePath.day dfrom)
            (some (.readable (serializeLines (dayContent dfrom)))))
          (PagePath.week (isoWeek dfrom))
          (some (.readable (serializeLines (weekContent (isoWeek dfrom))))),
          PagePath.week (isoWeek dfrom)) := by
      simp [printWeek, writePage, h2, Except.map]
    have e3 : printMonth (Function.update
        (Function.update fs (PagePath.day dfrom)
          (some (.readable (serializeLines (dayContent dfrom)))))
        (PagePath.week (isoWeek dfrom))
        (some (.readable (serializeLines (weekContent (isoWeek dfrom))))))
        (monthOf dfrom) = .error () := by
      simp [printMonth, writePage, h3, Except.map]
    simp only [runPreparer, e1, except_bind_ok, e2, e3]
    rfl

/-- Witness for claim C1: an unreadable month file and a month file with a
separator-less metadata line both abort; with no file the fresh page is
written; an unreadable month file aborts a whole run. -/
theorem claim_C1_parse_failure_aborts_witness :
    printMonth (fun p => if p = PagePath.month (2024, 9) then some FileState.unreadable
      else none) (2024, 9) = .error () ∧
    printMonth (fun p => if p = PagePath.month (2024, 9) then
      some (FileState.readable ["nosep"]) else none) (2024, 9) = .error () ∧
    printMonth emptyFS (2024, 9) = .ok
      (Function.update emptyFS (PagePath.month (2024, 9))
        (some (.readable (serializeLines (monthContent (2024, 9))))),
        PagePath.month (2024, 9)) ∧
    runPreparer (fun p => if p = PagePath.month (2024, 9) then some FileState.unreadable
      else none) (daysFromCivil 2024 9 1) (daysFromCivil 2024 10 1) = .error () :=
  ⟨(claim_C1_parse_failure_aborts _ (2024, 9)).1 (by decide),
    (claim_C1_parse_failure_aborts _ (2024, 9)).2.1 ["nosep"] (by decide) (by decide),
    (claim_C1_parse_failure_aborts emptyFS (2024, 9)).2.2.1 rfl,
    (claim_C1_parse_failure_aborts _ (2024, 9)).2.2.2 (daysFromCivil 2024 9 1)
      (daysFromCivil 2024 10 1) (by decide) (by decide) (by decide)⟩

/-- Claim C8: for every valid range the scan processes `from` and each
successive day, the last day processed being `to` itself (the scan is
inclusive); concretely, the run from 2024-09-01 to 2024-10-01 over an
empty graph processes exactly the 31 days 2024-09-01 .. 2024-10-01 and
emits exactly one Month page for September and one for October. -/
theorem claim_C8_day_scan :
    (∀ (fs : FS) (dfrom dto : Int), GoodFS fs → dfrom < dto →
      ∃ fs' evs, runPreparer fs dfrom dto = .ok (fs', evs) ∧
        evs.filter isDayPath = (dayRange dfrom dto).map PagePath.day) ∧
    (∃ fs' evs,
      runPreparer emptyFS (daysFromCivil 2024 9 1) (daysFromCivil 2024 10 1) =
        .ok (fs', evs) ∧
      evs.filter isDayPath =
        (dayRange (daysFromCivil 2024 9 1) (daysFromCivil 2024 10 1)).map PagePath.day ∧
      (dayRange (daysFromCivil 2024 9 1) (daysFromCivil 2024 10 1)).length = 31 ∧
      evs.filter isMonthPath = [PagePath.month (2024, 9), PagePath.month (2024, 10)]) := by
  constructor
  · intro fs dfrom dto hg hlt
    obtain ⟨fs', evs, h1, _, _, h4, _, _⟩ := runPreparer_ok fs dfrom dto hg hlt
    exact ⟨fs', evs, h1, h4⟩
  · obtain ⟨fs', evs, h1, _, _, hday, hmon, _⟩ :=
      runPreparer_ok emptyFS (daysFromCivil 2024 9 1) (daysFromCivil 2024 10 1)
        goodFS_empty (by decide)
    refine ⟨fs', evs, h1, hday, by decide, ?_⟩
    rw [hmon]
    decide

/-- Witness for claim C8 at a concrete one-day range. -/
theorem claim_C8_day_scan_witness :
    ∃ fs' evs, runPreparer emptyFS 0 1 = .ok (fs', evs) ∧
      evs.filter isDayPath = (dayRange 0 1).map PagePath.day :=
  claim_C8_day_scan.1 emptyFS 0 1 goodFS_empty (by decide)

/-- Claim C9 (amended): the orchestrator computes the Year page path and
reports it on the console for the initial day's year and whenever the
derived year changes, but it builds no Year page document and never
writes to any year path — the filesystem at year paths is exactly the
initial one after a successful run. -/
theorem claim_C9_year_printed_not_written (fs : FS) (dfrom dto : Int)
    (hg : GoodFS fs) (hlt : dfrom < dto) :
    ∃ fs' evs, runPreparer fs dfrom dto = .ok (fs', evs) ∧
      (∀ yy, fs' (.year yy) = fs (.year yy)) ∧
      evs.filter isYearPath =
        (dateYear dfrom ::
          changesFrom (dateYear dfrom) ((dayRange (dfrom + 1) dto).map dateYear)).map
          PagePath.year := by
  obtain ⟨fs', evs, h1, _, hyr, _, _, hyear⟩ := runPreparer_ok fs dfrom dto hg hlt
  exact ⟨fs', evs, h1, hyr, hyear⟩

/-- Counterexample to claim C9 as stated: running over the 2024→2025 year
boundary with an empty graph reports both year paths (the year was
encountered and emitted), yet afterwards no file exists at either year
path — the Page Store never merged or wrote a Year page, because
`print_year` only prints the path. -/
theorem claim_C9_counterexample :
    printYear emptyFS 2025 = .ok (emptyFS, PagePath.year 2025) ∧
    ∃ fs' evs, runPreparer emptyFS (daysFromCivil 2024 12 31) (daysFromCivil 2025 1 1) =
      .ok (fs', evs) ∧
      evs.filter isYearPath = [PagePath.year 2024, PagePath.year 2025] ∧
      fs' (PagePath.year 2024) = none ∧ fs' (PagePath.year 2025) = none := by
  refine ⟨rfl, ?_⟩
  obtain ⟨fs', evs, h1, _, hyr, _, _, hyear⟩ :=
    runPreparer_ok emptyFS (daysFromCivil 2024 12 31) (daysFromCivil 2025 1 1)
      goodFS_empty (by decide)
  refine ⟨fs', evs, h1, ?_, ?_, ?_⟩
  · rw [hyear]
    decide
  · rw [hyr]
    rfl
  · rw [hyr]
    rfl

/-- Witness for claim C9 at a concrete range and the empty filesystem. -/
theorem claim_C9_year_printed_not_written_witness :
    ∃ fs' evs, runPreparer emptyFS 0 1 = .ok (fs', evs) ∧
      (∀ yy, fs' (.year yy) = emptyFS (.year yy)) ∧
      evs.filter isYearPath =
        (dateYear 0 :: changesFrom (dateYear 0) ((dayRange (0 + 1) 1).map dateYear)).map
          PagePath.year :=
  claim_C9_year_printed_not_written emptyFS 0 1 goodFS_empty (by decide)

end JournalPrepare
